import Mathlib

/-!
Verification of the pyscad CSG compiler core (`src/pyscad.py`).

The embedding models, straight from the source:
  * `Node` — the geometry DAG (`PrimitiveNode` / `CompositeNode`), with
    Python's structural `__eq__` rendered as Lean's structural equality;
  * `Selection` — `void_selection` / `NodeSelection` / `InvertedSelection`,
    together with the three observable queries `void`, `inverted`, `node`
    (in Python, `InvertedSelection` wraps and the queries chain through);
  * `Selection.intersect` / `union` / `invert` / `create`;
  * `Object.compose` (cross product, tally, term-count minimization),
    `Object.create`, the `+ * -` arithmetic;
  * `compile_scad`: the `bool`-classification compose, the inverted / void
    root checks, the `walk_nodes` traversal, module assignment and the
    line renderer.
-/

set_option maxHeartbeats 1000000

/-- Rendering of `_str_call(f)` with no arguments: `f()`. -/
def strCall0 (f : String) : String := f ++ "()"

/-- Geometry DAG term: `PrimitiveNode` (opaque text leaf) or `CompositeNode`
(text plus ordered child list).  Python compares nodes with the structural
`_compare_key`, which is exactly structural equality of this type. -/
inductive Node where
  | primitive (text : String)
  | composite (text : String) (children : List Node)

/-- Children of a node (`PrimitiveNode.child_nodes = []`,
`CompositeNode.child_nodes = self._nodes`). -/
def Node.childNodes : Node → List Node
  | .primitive _ => []
  | .composite _ cs => cs

mutual

/-- Structural boolean equality of nodes, mirroring `Node.__eq__` via
`_compare_key` (text for primitives, text plus recursively compared child
list for composites). -/
def Node.beq : Node → Node → Bool
  | .primitive t, .primitive t' => t == t'
  | .composite t cs, .composite t' cs' => t == t' && Node.beqList cs cs'
  | _, _ => false

/-- Pointwise `Node.beq` on child lists (Python tuple comparison). -/
def Node.beqList : List Node → List Node → Bool
  | [], [] => true
  | c :: cs, c' :: cs' => Node.beq c c' && Node.beqList cs cs'
  | _, _ => false

end

mutual

theorem Node.beq_iff : ∀ a b : Node, Node.beq a b = true ↔ a = b
  | .primitive t, .primitive t' => by simp [Node.beq]
  | .primitive t, .composite t' cs' => by simp [Node.beq]
  | .composite t cs, .primitive t' => by simp [Node.beq]
  | .composite t cs, .composite t' cs' => by
      simp [Node.beq, Node.beqList_iff cs cs', Bool.and_eq_true, beq_iff_eq]

theorem Node.beqList_iff : ∀ a b : List Node, Node.beqList a b = true ↔ a = b
  | [], [] => by simp [Node.beqList]
  | [], c' :: cs' => by simp [Node.beqList]
  | c :: cs, [] => by simp [Node.beqList]
  | c :: cs, c' :: cs' => by
      simp [Node.beqList, Bool.and_eq_true, Node.beq_iff c c', Node.beqList_iff cs cs']

end

instance : DecidableEq Node := fun a b =>
  decidable_of_iff (Node.beq a b = true) (Node.beq_iff a b)

/-- `Node.compose(text, *nodes) = CompositeNode(text, nodes)`. -/
def Node.compose (text : String) (nodes : List Node) : Node := .composite text nodes

/-- `Node.create(text) = PrimitiveNode(text)`. -/
def Node.create (text : String) : Node := .primitive text

/-- `Node.intersect`: destructures `first, *rest = nodes` (failing on an empty
list, modelled by `none`), returns `first` alone or an `intersection()`
composite over the whole list. -/
def Node.intersectN : List Node → Option Node
  | [] => none
  | first :: rest =>
      some (if rest.isEmpty then first else Node.compose (strCall0 "intersection") (first :: rest))

/-- `Node.union`: same shape as `Node.intersect` with text `union()`. -/
def Node.unionN : List Node → Option Node
  | [] => none
  | first :: rest =>
      some (if rest.isEmpty then first else Node.compose (strCall0 "union") (first :: rest))

/-- `Node.minus(left, right)`: a `difference()` composite over the two nodes. -/
def Node.minus (left right : Node) : Node :=
  Node.compose (strCall0 "difference") [left, right]

/-- Selections: `void_selection`, `NodeSelection(node)` and
`InvertedSelection(selection)` (which wraps without collapsing). -/
inductive Selection where
  | void
  | node (n : Node)
  | inverted (s : Selection)
deriving DecidableEq

/-- The `void` query: `void_selection.void` is truthy, `NodeSelection.void`
is `False`, and `InvertedSelection.void` chains to the wrapped selection. -/
def Selection.isVoid : Selection → Bool
  | .void => true
  | .node _ => false
  | .inverted s => s.isVoid

/-- The `inverted` query: `False` on `void_selection` and `NodeSelection`,
negated through each `InvertedSelection` wrapper. -/
def Selection.invertedQ : Selection → Bool
  | .void => false
  | .node _ => false
  | .inverted s => !s.invertedQ

/-- The `node` query, made total with `Option`: `void_selection` has no node
(`none`), `NodeSelection` returns its node, `InvertedSelection` chains. -/
def Selection.getNode : Selection → Option Node
  | .void => none
  | .node n => some n
  | .inverted s => s.getNode

/-- The `node` query on a selection known to be non-void (the only situation
in which the source reads `.node`). -/
def Selection.nodeOf : (s : Selection) → s.isVoid = false → Node
  | .node n, _ => n
  | .inverted s, h => s.nodeOf h

/-- `Selection.invert(selection) = InvertedSelection(selection)` — always a
fresh wrapper. -/
def Selection.invert (s : Selection) : Selection := .inverted s

/-- `Selection.create(node) = NodeSelection(node)`. -/
def Selection.create (n : Node) : Selection := .node n

theorem Selection.isVoid_eq_false_of_ne_true {s : Selection} (h : ¬s.isVoid = true) :
    s.isVoid = false := by
  cases hv : s.isVoid with
  | true => exact absurd hv h
  | false => rfl

/-- The accumulation loop of `Selection.intersect`: walks the input
selections, collecting `inverted_nodes` and `nodes`; an inverted void input
is skipped, a non-inverted void input aborts the whole intersection
(modelled by `none`). -/
def Selection.intersectLoop : List Selection → List Node → List Node →
    Option (List Node × List Node)
  | [], invAcc, acc => some (invAcc, acc)
  | i :: rest, invAcc, acc =>
      if i.invertedQ then
        if hv : i.isVoid = true then
          Selection.intersectLoop rest invAcc acc
        else
          Selection.intersectLoop rest (invAcc ++ [i.nodeOf (Selection.isVoid_eq_false_of_ne_true hv)]) acc
      else
        if hv : i.isVoid = true then
          none
        else
          Selection.intersectLoop rest invAcc (acc ++ [i.nodeOf (Selection.isVoid_eq_false_of_ne_true hv)])

/-- `Selection.intersect`, with the partiality of the `first, *rest`
destructuring in `Node.intersect` / `Node.union` exposed: `none` would mean
one of those destructurings failed (we prove it never does). -/
def Selection.intersectQ (selections : List Selection) : Option Selection :=
  match Selection.intersectLoop selections [] [] with
  | none => some Selection.void
  | some (invertedNodes, nodes) =>
      if invertedNodes.isEmpty then
        if nodes.isEmpty then some Selection.void
        else
          match Node.intersectN nodes with
          | some a => some (Selection.create a)
          | none => none
      else
        if nodes.isEmpty then
          match Node.unionN invertedNodes with
          | some b => some (Selection.invert (Selection.create b))
          | none => none
        else
          match Node.intersectN nodes, Node.unionN invertedNodes with
          | some a, some b => some (Selection.create (Node.minus a b))
          | _, _ => none

/-- `Selection.intersect(selections)`.  The `.getD` default is dead code:
`selection_intersect_total` (claim C10) shows `intersectQ` always succeeds. -/
def Selection.intersect (selections : List Selection) : Selection :=
  (Selection.intersectQ selections).getD Selection.void

/-- `Selection.union = invert ∘ intersect ∘ map invert` (De Morgan, verbatim
from the source). -/
def Selection.union (selections : List Selection) : Selection :=
  Selection.invert (Selection.intersect (selections.map Selection.invert))

/-- Object: an insertion-ordered mapping from selector values to selections
(Python dict).  The selector type is left generic, as `Object.compose` is
duck-typed over selector values. -/
abbrev PObject (σ : Type) : Type := List (σ × Selection)

/-- `Object.get_selection(selector) = self._selections.get(selector, void_selection)`. -/
def Object.getSelection {σ : Type} [DecidableEq σ] (o : PObject σ) (s : σ) : Selection :=
  (List.lookup s o).getD Selection.void

/-- Selector keys in insertion order (`self._selections.keys()`). -/
def Object.selectors {σ : Type} (o : PObject σ) : List σ := o.map (·.1)

/-- `itertools.product(*lists)`: the leftmost factor varies slowest. -/
def listProduct {α : Type} : List (List α) → List (List α)
  | [] => [[]]
  | l :: ls => l.flatMap fun a => (listProduct ls).map (a :: ·)

/-- `_tally`: build a map from first components to the list of second
components, keys in first-appearance order, values in encounter order. -/
def tallyInsert {τ α : Type} [DecidableEq τ] (k : τ) (v : α) :
    List (τ × List α) → List (τ × List α)
  | [] => [(k, [v])]
  | (k', vs) :: rest =>
      if k' = k then (k', vs ++ [v]) :: rest else (k', vs) :: tallyInsert k v rest

/-- `_tally` over a whole pair list. -/
def tally {τ α : Type} [DecidableEq τ] (l : List (τ × α)) : List (τ × List α) :=
  l.foldl (fun acc kv => tallyInsert kv.1 kv.2 acc) []

/-- `iter_selections` inside `Object.compose`: for each combination of the
objects' selector keys, the result selector `op(*selectors)` paired with the
per-object selections of that combination. -/
def Object.iterSelections {σ τ : Type} [DecidableEq σ] (op : List σ → τ)
    (objects : List (PObject σ)) : List (τ × List Selection) :=
  (listProduct (objects.map Object.selectors)).map fun selectors =>
    (op selectors, (objects.zip selectors).map fun os => Object.getSelection os.1 os.2)

/-- `combine(groups) = Selection.union([Selection.intersect(i) for i in groups])`. -/
def Object.combine (groups : List (List Selection)) : Selection :=
  Selection.union (groups.map Selection.intersect)

/-- The flattened list of groups mapping to selectors other than `s`
(`inverse_groups` in `compute_selection`). -/
def Object.inverseGroups {τ : Type} [DecidableEq τ]
    (tallied : List (τ × List (List Selection))) (s : τ) : List (List Selection) :=
  (tallied.filter fun kv => kv.1 ≠ s).flatMap (·.2)

/-- `compute_selection(selector)`: use the conjunctive or disjunctive normal
form, whichever has fewer terms. -/
def Object.computeSelection {τ : Type} [DecidableEq τ]
    (tallied : List (τ × List (List Selection))) (s : τ) : Selection :=
  let groups := (List.lookup s tallied).getD []
  let inverse := Object.inverseGroups tallied s
  if groups.length > inverse.length then Selection.invert (Object.combine inverse)
  else Object.combine groups

/-- `Object.compose(operation, *objects)`. -/
def Object.compose {σ τ : Type} [DecidableEq σ] [DecidableEq τ]
    (op : List σ → τ) (objects : List (PObject σ)) : PObject τ :=
  let tallied := tally (Object.iterSelections op objects)
  tallied.map fun kv => (kv.1, Object.computeSelection tallied kv.1)

/-- `Object.create(selection)`: the bipartite `{True: selection, False: invert(selection)}`. -/
def Object.create (s : Selection) : PObject Bool :=
  [(true, s), (false, Selection.invert s)]

/-- Selector algebra on the two concrete selector values:
`true_selector + x = true_selector`, `false_selector + x = x`. -/
def selAdd (a b : Bool) : Bool := a || b

/-- `true_selector * x = x`, `false_selector * x = false_selector`. -/
def selMul (a b : Bool) : Bool := a && b

/-- `-true_selector = false_selector` and vice versa. -/
def selNeg (a : Bool) : Bool := !a

/-- `Selector.__sub__ : a - b = a * -b`. -/
def selSub (a b : Bool) : Bool := selMul a (selNeg b)

/-- Variadic wrapper for a binary selector operation as passed to
`Object.compose`; the `_` arm is unreachable when composing two objects. -/
def binOp (f : Bool → Bool → Bool) : List Bool → Bool
  | [a, b] => f a b
  | _ => false

/-- Variadic wrapper for a unary selector operation; the `_` arm is
unreachable when composing one object. -/
def unOp (f : Bool → Bool) : List Bool → Bool
  | [a] => f a
  | _ => false

/-- `Object.__add__`. -/
def Object.add (a b : PObject Bool) : PObject Bool := Object.compose (binOp selAdd) [a, b]

/-- `Object.__mul__`. -/
def Object.mul (a b : PObject Bool) : PObject Bool := Object.compose (binOp selMul) [a, b]

/-- `Object.__sub__`. -/
def Object.sub (a b : PObject Bool) : PObject Bool := Object.compose (binOp selSub) [a, b]

/-- `Object.__neg__`. -/
def Object.negO (a : PObject Bool) : PObject Bool := Object.compose (unOp selNeg) [a]

/-- The `lambda x: bool(x)` classification in `compile_scad`; on the
two-valued selector domain it is the identity. -/
def boolClassify : List Bool → Bool
  | [a] => a
  | _ => false

/-- The root selection extracted by `compile_scad`:
`Object.compose(lambda x: bool(x), object).get_selection(True)`. -/
def Object.rootSelection (obj : PObject Bool) : Selection :=
  Object.getSelection (Object.compose boolClassify [obj]) true

deriving instance DecidableEq for Except

/-- The front half of `compile_scad`: the inverted / void fatal checks, then
the root node.  Errors carry the Python exception messages. -/
def Object.compileRoot (obj : PObject Bool) : Except String Node :=
  let s := Object.rootSelection obj
  if s.invertedQ then .error "The top-level node is inverted."
  else if hv : s.isVoid = true then .error "The top-level node is void."
  else .ok (s.nodeOf (Selection.isVoid_eq_false_of_ne_true hv))

/-- Mutable state of `compile_scad`'s traversal: `nodes_set` (all nodes
seen), `nodes_list` (post-order completion order) and `reused_nodes`
(nodes encountered a second time).  Python's sets are modelled as
duplicate-free lists with structural membership. -/
structure WalkState where
  nodesSet : List Node
  nodesList : List Node
  reused : List Node
deriving DecidableEq

/-- `reused_nodes.add(node)` (set insertion). -/
def insertReused (n : Node) (l : List Node) : List Node :=
  if n ∈ l then l else l ++ [n]

mutual

/-- `walk_nodes(node)`: a node already seen is marked reused and its subtree
skipped; otherwise it is added to the seen set, its children walked, and the
node appended to `nodes_list`. -/
def walkNodes (n : Node) (st : WalkState) : WalkState :=
  if n ∈ st.nodesSet then
    { st with reused := insertReused n st.reused }
  else
    match n with
    | .primitive t =>
        let st1 : WalkState := { st with nodesSet := st.nodesSet ++ [Node.primitive t] }
        { st1 with nodesList := st1.nodesList ++ [Node.primitive t] }
    | .composite t cs =>
        let st1 : WalkState := { st with nodesSet := st.nodesSet ++ [Node.composite t cs] }
        let st2 := walkList cs st1
        { st2 with nodesList := st2.nodesList ++ [Node.composite t cs] }

/-- The `for i in node.child_nodes: walk_nodes(i)` loop. -/
def walkList (cs : List Node) (st : WalkState) : WalkState :=
  match cs with
  | [] => st
  | c :: rest => walkList rest (walkNodes c st)

end

/-- The `for i in reversed(nodes_list)` loop allocating modules and the
replacement map.  `k` is `len(modules)` so far; a reused node `n` becomes
module `node_{k+1}` and is replaced by the reference `PrimitiveNode("node_{k+1}()")`
(recorded as `some "node_{k+1}()"`); any other node is replaced by itself
(recorded as `none`). -/
def numberModules (reused : List Node) (k : Nat) :
    List Node → List (String × Node) × List (Node × Option String)
  | [] => ([], [])
  | n :: rest =>
      if n ∈ reused then
        let name := "node_" ++ toString (k + 1)
        let mr := numberModules reused (k + 1) rest
        ((name, n) :: mr.1, (n, some (strCall0 name)) :: mr.2)
      else
        let mr := numberModules reused k rest
        (mr.1, (n, none) :: mr.2)

/-- A tab in front of every line (`'\t' + j`). -/
def indentLines (ls : List String) : List String := ls.map ("\t" ++ ·)

mutual

/-- `Node.iter_lines(node_replacements)`: a primitive is its text plus `;`;
a composite with one child is its text with the replaced child nested, with
several children a `{ ... }` block around all replaced children.  (A
composite with no children would crash the source's destructuring; the core
never builds one — see the C10 theorem.) -/
def Node.iterLines (repl : List (Node × Option String)) : Node → List String
  | .primitive t => [t ++ ";"]
  | .composite _ [] => []
  | .composite t [c] => t :: Node.childrenLines repl [c]
  | .composite t cs => (t ++ " \x7b") :: Node.childrenLines repl cs ++ ["\x7d"]

/-- The `for i in self._nodes: yield from iter_node_lines(i)` loop:
each child is looked up in `node_replacements` — a module reference renders
as the reference call, any other node in place — and indented one level. -/
def Node.childrenLines (repl : List (Node × Option String)) : List Node → List String
  | [] => []
  | c :: rest =>
      (match (List.lookup c repl).getD none with
       | some refText => indentLines [refText ++ ";"]
       | none => indentLines (Node.iterLines repl c)) ++ Node.childrenLines repl rest

end

/-- `_Module.iter_lines`: the header `module <name>()` followed by the
module's own node rendered one indent deeper (children still replaced). -/
def Node.moduleLines (repl : List (Node × Option String)) (m : String × Node) : List String :=
  ("module " ++ m.1 ++ "()") :: indentLines (Node.iterLines repl m.2)

/-- Whole `compile_scad`: root checks, traversal, module assignment, then
the root's lines followed by a blank line and the declaration of each module
in allocation order. -/
def Object.compileScad (obj : PObject Bool) : Except String (List String) :=
  (Object.compileRoot obj).map fun root =>
    let st := walkNodes root ⟨[], [], []⟩
    let mr := numberModules st.reused 0 st.nodesList.reverse
    Node.iterLines mr.2 root ++ mr.1.flatMap fun m => "" :: Node.moduleLines mr.2 m

mutual

/-- Number of positions (branches) of the tree unfolding of `n` at which the
structure `target` occurs — the count of "distinct branches structurally
identical to `target`".  Specification-side notion used to state the
deduplication claims. -/
def Node.occCount (target n : Node) : Nat :=
  match n with
  | .primitive t => if Node.primitive t = target then 1 else 0
  | .composite t cs =>
      (if Node.composite t cs = target then 1 else 0) + Node.occCountList target cs

/-- Sum of `Node.occCount` over a child list. -/
def Node.occCountList (target : Node) : List Node → Nat
  | [] => 0
  | c :: rest => Node.occCount target c + Node.occCountList target rest

end

mutual

/-- The nodes whose module references appear in the rendering of `n` under
the replacement map: the recursion follows `Node.iterLines` exactly — a
replaced child contributes itself (its rendering is the module reference
call), an unreplaced child is descended into. -/
def Node.refNodes (repl : List (Node × Option String)) (n : Node) : List Node :=
  match n with
  | .primitive _ => []
  | .composite _ cs => Node.refNodesList repl cs

/-- `Node.refNodes` over a child list. -/
def Node.refNodesList (repl : List (Node × Option String)) : List Node → List Node
  | [] => []
  | c :: rest =>
      (match (List.lookup c repl).getD none with
       | some _ => [c]
       | none => Node.refNodes repl c) ++ Node.refNodesList repl rest

end

/-- Fold of set union over a list of point sets (geometry of `union()`). -/
def setUnionAll {α : Type} (ds : List (Set α)) : Set α := ds.foldr (· ∪ ·) ∅

/-- Fold of set intersection over a list of point sets (geometry of
`intersection()`). -/
def setInterAll {α : Type} (ds : List (Set α)) : Set α := ds.foldr (· ∩ ·) Set.univ

mutual

/-- Geometric reading of an emitted node, used to state "renders identical
geometry": `union()` / `intersection()` / `difference()` get their OpenSCAD
set semantics, every other operator text is an uninterpreted function `c` of
the children's geometries, and every primitive text an uninterpreted point
set `p`. -/
def Node.denote {α : Type} (p : String → Set α) (c : String → List (Set α) → Set α) :
    Node → Set α
  | .primitive t => p t
  | .composite t cs =>
      let ds := Node.denoteList p c cs
      if t = strCall0 "union" then setUnionAll ds
      else if t = strCall0 "intersection" then setInterAll ds
      else if t = strCall0 "difference" then
        match ds with
        | [] => ∅
        | d :: rest => d \ setUnionAll rest
      else c t ds

/-- `Node.denote` over a child list. -/
def Node.denoteList {α : Type} (p : String → Set α) (c : String → List (Set α) → Set α) :
    List Node → List (Set α)
  | [] => []
  | n :: rest => Node.denote p c n :: Node.denoteList p c rest

end

/-- Observable equivalence of selections: equal `void`, `inverted` and `node`
queries.  All of `Selection.intersect` / `union` and `Object.compose` consume
their input selections only through these three queries. -/
def SelEquiv (a b : Selection) : Prop :=
  a.isVoid = b.isVoid ∧ a.invertedQ = b.invertedQ ∧ a.getNode = b.getNode

/-- Observable equivalence of objects: equal selector keys, observably
equivalent selections, pointwise. -/
def ObjEquiv {σ : Type} (o o' : PObject σ) : Prop :=
  List.Forall₂ (fun p q => p.1 = q.1 ∧ SelEquiv p.2 q.2) o o'

/-- Observable equivalence of tallied group maps. -/
def TallyEquiv {τ : Type} (t t' : List (τ × List (List Selection))) : Prop :=
  List.Forall₂ (fun p q => p.1 = q.1 ∧ List.Forall₂ (List.Forall₂ SelEquiv) p.2 q.2) t t'

/-- Strict subterm relation between nodes: `StrictSub d n` holds when `d`
occurs somewhere properly inside `n`'s tree. -/
inductive StrictSub : Node → Node → Prop where
  | base {c n : Node} : c ∈ n.childNodes → StrictSub c n
  | step {d c n : Node} : StrictSub d c → c ∈ n.childNodes → StrictSub d n

/-- Invariant of the traversal state: the completion list is duplicate-free,
contained in the seen set, closed under strict subterms, and ordered with
every strict subterm before the node containing it. -/
def WalkInv (st : WalkState) : Prop :=
  st.nodesList.Nodup ∧
  (∀ x ∈ st.nodesList, x ∈ st.nodesSet) ∧
  (∀ m ∈ st.nodesList, ∀ d, StrictSub d m → d ∈ st.nodesList) ∧
  st.nodesList.Pairwise (fun a b => ¬StrictSub b a)

/-- Every in-progress node (seen but not yet completed) strictly contains
the node about to be walked. -/
def Pending (st : WalkState) (n : Node) : Prop :=
  ∀ p ∈ st.nodesSet, p ∉ st.nodesList → StrictSub n p

/-- Postcondition of one traversal step from `st` to `st'`: the completion
list grows by fresh nodes covered by `covers`, the seen set grows and every
newly seen node is completed, new reused marks are completed nodes, and the
invariant is maintained. -/
structure WalkOut (st st' : WalkState) (covers : Node → Prop) : Prop where
  listExt : ∃ Δ, st'.nodesList = st.nodesList ++ Δ ∧ ∀ y ∈ Δ, y ∉ st.nodesSet ∧ covers y
  setGrow : ∀ x ∈ st.nodesSet, x ∈ st'.nodesSet
  setNew : ∀ x ∈ st'.nodesSet, x ∈ st.nodesSet ∨ x ∈ st'.nodesList
  reusedNew : ∀ x ∈ st'.reused, x ∈ st.reused ∨ x ∈ st'.nodesList
  inv : WalkInv st'

/-- Equality of nodes as the specification states it: primitives by text,
composites by text and recursively compared child sequence, nothing across
variants. -/
def Node.eqSpec : Node → Node → Prop
  | .primitive t, .primitive t' => t = t'
  | .composite t cs, .composite t' cs' => t = t' ∧ cs = cs'
  | _, _ => False

/-- Representation size of a selection value: one for the underlying
`void_selection` / `NodeSelection`, plus one per `InvertedSelection`
wrapper. -/
def Selection.reprSize : Selection → Nat
  | .void => 1
  | .node _ => 1
  | .inverted s => s.reprSize + 1

/-- A Python value handed to `Object.compose`: either an `Object` or
anything else (the `assert all(isinstance(i, Object) ...)` guard only
distinguishes these two cases). -/
inductive PyVal where
  | obj (o : PObject Bool)
  | nonObject
deriving DecidableEq

/-- `isinstance(v, Object)`. -/
def PyVal.isObject : PyVal → Bool
  | .obj _ => true
  | .nonObject => false

/-- `Object.compose` with its leading argument assertion: the operands are
checked to all be `Object`s before any composition work (the cross product,
tally and selection computations) is touched; a non-`Object` operand fails
immediately. -/
def Object.composeChecked (op : List Bool → Bool) (vals : List PyVal) :
    Except String (PObject Bool) :=
  if vals.all PyVal.isObject then
    .ok (Object.compose op (vals.filterMap fun v =>
      match v with
      | .obj o => some o
      | .nonObject => none))
  else .error "TypeMismatch"

@[simp] theorem Selection.isVoid_void : Selection.void.isVoid = true := rfl

@[simp] theorem Selection.isVoid_node (n : Node) : (Selection.node n).isVoid = false := rfl

@[simp] theorem Selection.isVoid_inverted (s : Selection) :
    (Selection.inverted s).isVoid = s.isVoid := rfl

@[simp] theorem Selection.invertedQ_void : Selection.void.invertedQ = false := rfl

@[simp] theorem Selection.invertedQ_node (n : Node) : (Selection.node n).invertedQ = false := rfl

@[simp] theorem Selection.invertedQ_inverted (s : Selection) :
    (Selection.inverted s).invertedQ = !s.invertedQ := rfl

@[simp] theorem Selection.getNode_void : Selection.void.getNode = none := rfl

@[simp] theorem Selection.getNode_node (n : Node) : (Selection.node n).getNode = some n := rfl

@[simp] theorem Selection.getNode_inverted (s : Selection) :
    (Selection.inverted s).getNode = s.getNode := rfl

@[simp] theorem Selection.invert_def (s : Selection) :
    Selection.invert s = Selection.inverted s := rfl

/-- A selection's node query succeeds exactly when the selection is not void. -/
theorem Selection.getNode_eq_none_iff (s : Selection) : s.getNode = none ↔ s.isVoid = true := by
  induction s with
  | void => simp
  | node n => simp
  | inverted s ih => simpa using ih

theorem Selection.isVoid_eq_false_of_getNode {s : Selection} {m : Node}
    (h : s.getNode = some m) : s.isVoid = false := by
  cases hv : s.isVoid with
  | false => rfl
  | true => rw [← Selection.getNode_eq_none_iff] at hv; rw [h] at hv; cases hv

theorem Selection.nodeOf_eq {s : Selection} {m : Node} (hn : s.getNode = some m) :
    ∀ h : s.isVoid = false, s.nodeOf h = m := by
  induction s with
  | void => intro h; cases h
  | node n =>
      intro h
      simp only [Selection.getNode_node, Option.some.injEq] at hn
      simpa [Selection.nodeOf] using hn
  | inverted s ih =>
      intro h
      simp only [Selection.getNode_inverted] at hn
      exact ih hn h

/-- Claim C10 helper: the `first, *rest` destructuring inside `Node.intersect`
and `Node.union` succeeds on any non-empty list. -/
theorem Node.intersectN_isSome {l : List Node} (h : l ≠ []) : (Node.intersectN l).isSome = true := by
  cases l with
  | nil => exact absurd rfl h
  | cons a rest => simp [Node.intersectN]

theorem Node.unionN_isSome {l : List Node} (h : l ≠ []) : (Node.unionN l).isSome = true := by
  cases l with
  | nil => exact absurd rfl h
  | cons a rest => simp [Node.unionN]

/-- If the walked selection list contains a non-inverted void selection, the
accumulation loop of `Selection.intersect` aborts with the void result, no
matter what was accumulated before. -/
theorem Selection.intersectLoop_void_mem {v : Selection} (hv : v.isVoid = true)
    (hp : v.invertedQ = false) :
    ∀ (L1 L2 : List Selection) (invAcc acc : List Node),
      Selection.intersectLoop (L1 ++ v :: L2) invAcc acc = none := by
  intro L1
  induction L1 with
  | nil =>
      intro L2 invAcc acc
      simp [Selection.intersectLoop, hp, hv]
  | cons i rest ih =>
      intro L2 invAcc acc
      simp only [List.cons_append, Selection.intersectLoop]
      split
      · split
        · exact ih ..
        · exact ih ..
      · split
        · rfl
        · exact ih ..

/-- Source-level reading of the previous lemma: an intersection containing a
non-inverted void selection is void. -/
theorem Selection.intersect_void_mem {v : Selection} (hv : v.isVoid = true)
    (hp : v.invertedQ = false) (L1 L2 : List Selection) :
    Selection.intersect (L1 ++ v :: L2) = Selection.void := by
  unfold Selection.intersect Selection.intersectQ
  rw [Selection.intersectLoop_void_mem hv hp]
  rfl

/-- A union containing an inverted-void selection collapses to the
inverted-void selection `invert(void_selection)`: mapping `invert` over the
inputs turns the inverted-void term into a non-inverted void, which
annihilates the inner intersection. -/
theorem Selection.union_invvoid_mem {w : Selection} (hv : w.isVoid = true)
    (hp : w.invertedQ = true) (L1 L2 : List Selection) :
    Selection.union (L1 ++ w :: L2) = Selection.inverted Selection.void := by
  unfold Selection.union
  rw [List.map_append, List.map_cons]
  rw [Selection.intersect_void_mem (v := Selection.invert w) (by simpa using hv)
    (by simp [hp]) (L1.map Selection.invert) (L2.map Selection.invert)]
  rfl

theorem SelEquiv.isRefl {a : Selection} : SelEquiv a a := ⟨Eq.refl _, Eq.refl _, Eq.refl _⟩

theorem SelEquiv.invert {a b : Selection} (h : SelEquiv a b) :
    SelEquiv (Selection.invert a) (Selection.invert b) := by
  obtain ⟨h1, h2, h3⟩ := h
  exact ⟨by simpa using h1, by simp [h2], by simpa using h3⟩

theorem Selection.getNode_isSome_of {s : Selection} (h : s.isVoid = false) :
    ∃ m, s.getNode = some m := by
  cases hg : s.getNode with
  | some m => exact ⟨m, rfl⟩
  | none => rw [Selection.getNode_eq_none_iff] at hg; rw [h] at hg; cases hg

theorem Selection.intersectLoop_congr {L L' : List Selection}
    (h : List.Forall₂ SelEquiv L L') :
    ∀ invAcc acc, Selection.intersectLoop L invAcc acc = Selection.intersectLoop L' invAcc acc := by
  induction h with
  | nil => intro invAcc acc; rfl
  | @cons a b rest rest' hab hrest ih =>
      intro invAcc acc
      obtain ⟨h1, h2, h3⟩ := hab
      simp only [Selection.intersectLoop, h1, h2]
      by_cases hinv : b.invertedQ = true
      · rw [if_pos hinv, if_pos hinv]
        by_cases hb : b.isVoid = true
        · rw [dif_pos hb, dif_pos hb]
          exact ih ..
        · have hbf := Selection.isVoid_eq_false_of_ne_true hb
          obtain ⟨m, hm⟩ := Selection.getNode_isSome_of hbf
          have hma : a.getNode = some m := h3.trans hm
          rw [dif_neg hb, dif_neg hb, Selection.nodeOf_eq hma, Selection.nodeOf_eq hm]
          exact ih ..
      · rw [if_neg hinv, if_neg hinv]
        by_cases hb : b.isVoid = true
        · rw [dif_pos hb, dif_pos hb]
        · have hbf := Selection.isVoid_eq_false_of_ne_true hb
          obtain ⟨m, hm⟩ := Selection.getNode_isSome_of hbf
          have hma : a.getNode = some m := h3.trans hm
          rw [dif_neg hb, dif_neg hb, Selection.nodeOf_eq hma, Selection.nodeOf_eq hm]
          exact ih ..

theorem Selection.intersect_congr {L L' : List Selection}
    (h : List.Forall₂ SelEquiv L L') : Selection.intersect L = Selection.intersect L' := by
  unfold Selection.intersect Selection.intersectQ
  rw [Selection.intersectLoop_congr h]

theorem List.forall₂_map_invert {L L' : List Selection}
    (h : List.Forall₂ SelEquiv L L') :
    List.Forall₂ SelEquiv (L.map Selection.invert) (L'.map Selection.invert) := by
  induction h with
  | nil => exact List.Forall₂.nil
  | cons hab _ ih => exact List.Forall₂.cons (hab.invert) ih

theorem Selection.union_congr {L L' : List Selection}
    (h : List.Forall₂ SelEquiv L L') : Selection.union L = Selection.union L' := by
  unfold Selection.union
  rw [Selection.intersect_congr (List.forall₂_map_invert h)]

theorem Object.map_intersect_eq {G G' : List (List Selection)}
    (h : List.Forall₂ (List.Forall₂ SelEquiv) G G') :
    G.map Selection.intersect = G'.map Selection.intersect := by
  induction h with
  | nil => rfl
  | cons hab _ ih => simp [Selection.intersect_congr hab, ih]

theorem Object.combine_congr {G G' : List (List Selection)}
    (h : List.Forall₂ (List.Forall₂ SelEquiv) G G') :
    Object.combine G = Object.combine G' := by
  unfold Object.combine
  rw [Object.map_intersect_eq h]

theorem Object.selectors_congr {σ : Type} {o o' : PObject σ} (h : ObjEquiv o o') :
    Object.selectors o = Object.selectors o' := by
  induction h with
  | nil => rfl
  | cons hab _ ih => simp [Object.selectors] at ih ⊢; exact ⟨hab.1, ih⟩

theorem Object.getSelection_congr {σ : Type} [DecidableEq σ] {o o' : PObject σ}
    (h : ObjEquiv o o') (s : σ) :
    SelEquiv (Object.getSelection o s) (Object.getSelection o' s) := by
  induction h with
  | nil => exact SelEquiv.isRefl
  | @cons p q rest rest' hab _ ih =>
      obtain ⟨hk, hs⟩ := hab
      unfold Object.getSelection at ih ⊢
      rcases p with ⟨k, v⟩
      rcases q with ⟨k', v'⟩
      cases hk
      by_cases he : s = k
      · subst he
        simp [List.lookup]
        exact hs
      · simpa [List.lookup, beq_false_of_ne he] using ih

theorem List.forall₂_map_same {α β : Type} {P : List α} {R : β → β → Prop}
    {f g : α → β} (h : ∀ x ∈ P, R (f x) (g x)) :
    List.Forall₂ R (P.map f) (P.map g) := by
  induction P with
  | nil => exact List.Forall₂.nil
  | cons a rest ih =>
      exact List.Forall₂.cons (h a (List.mem_cons_self a rest))
        (ih fun x hx => h x (List.mem_cons_of_mem a hx))

theorem Object.zipSelections_congr {σ : Type} [DecidableEq σ]
    {objs objs' : List (PObject σ)} (h : List.Forall₂ ObjEquiv objs objs') :
    ∀ sel : List σ,
      List.Forall₂ SelEquiv
        ((objs.zip sel).map fun os => Object.getSelection os.1 os.2)
        ((objs'.zip sel).map fun os => Object.getSelection os.1 os.2) := by
  induction h with
  | nil => intro sel; exact List.Forall₂.nil
  | @cons a b rest rest' hab _ ih =>
      intro sel
      cases sel with
      | nil => exact List.Forall₂.nil
      | cons s sel' =>
          exact List.Forall₂.cons (Object.getSelection_congr hab s) (ih sel')

theorem Object.iterSelections_congr {σ τ : Type} [DecidableEq σ] (op : List σ → τ)
    {objs objs' : List (PObject σ)} (h : List.Forall₂ ObjEquiv objs objs') :
    List.Forall₂ (fun p q => p.1 = q.1 ∧ List.Forall₂ SelEquiv p.2 q.2)
      (Object.iterSelections op objs) (Object.iterSelections op objs') := by
  unfold Object.iterSelections
  have hsel : objs.map Object.selectors = objs'.map Object.selectors := by
    induction h with
    | nil => rfl
    | cons hab _ ih => simp only [List.map_cons, Object.selectors_congr hab, ih]
  rw [← hsel]
  exact List.forall₂_map_same fun sel _ => ⟨rfl, Object.zipSelections_congr h sel⟩

theorem tallyInsert_congr {τ : Type} [DecidableEq τ] {acc acc' : List (τ × List (List Selection))}
    (h : TallyEquiv acc acc') (k : τ) {g g' : List Selection}
    (hg : List.Forall₂ SelEquiv g g') :
    TallyEquiv (tallyInsert k g acc) (tallyInsert k g' acc') := by
  induction h with
  | nil => exact List.Forall₂.cons ⟨rfl, List.Forall₂.cons hg List.Forall₂.nil⟩ List.Forall₂.nil
  | @cons p q rest rest' hab hrest ih =>
      obtain ⟨hk, hs⟩ := hab
      rcases p with ⟨k1, vs⟩
      rcases q with ⟨k1', vs'⟩
      cases hk
      unfold tallyInsert
      by_cases he : k1 = k
      · simp only [he, if_true]
        exact List.Forall₂.cons ⟨rfl, List.rel_append hs (List.Forall₂.cons hg List.Forall₂.nil)⟩ hrest
      · simp only [he, if_false]
        exact List.Forall₂.cons ⟨rfl, hs⟩ ih

theorem tally_congr {τ : Type} [DecidableEq τ] {l l' : List (τ × List Selection)}
    (h : List.Forall₂ (fun p q => p.1 = q.1 ∧ List.Forall₂ SelEquiv p.2 q.2) l l') :
    TallyEquiv (tally l) (tally l') := by
  unfold tally
  suffices hgen : ∀ acc acc', TallyEquiv acc acc' →
      TallyEquiv (l.foldl (fun acc kv => tallyInsert kv.1 kv.2 acc) acc)
        (l'.foldl (fun acc kv => tallyInsert kv.1 kv.2 acc) acc') by
    exact hgen [] [] List.Forall₂.nil
  induction h with
  | nil => intro acc acc' hacc; exact hacc
  | @cons p q rest rest' hab hrest ih =>
      intro acc acc' hacc
      obtain ⟨hk, hs⟩ := hab
      simp only [List.foldl_cons]
      rw [← hk] at *
      exact ih _ _ (tallyInsert_congr hacc p.1 hs)

theorem lookupGroups_congr {τ : Type} [DecidableEq τ] {t t' : List (τ × List (List Selection))}
    (h : TallyEquiv t t') (s : τ) :
    List.Forall₂ (List.Forall₂ SelEquiv) ((List.lookup s t).getD []) ((List.lookup s t').getD []) := by
  induction h with
  | nil => exact List.Forall₂.nil
  | @cons p q rest rest' hab _ ih =>
      obtain ⟨hk, hs⟩ := hab
      rcases p with ⟨k, vs⟩
      rcases q with ⟨k', vs'⟩
      cases hk
      by_cases he : s = k
      · subst he; simpa [List.lookup] using hs
      · simpa [List.lookup, beq_false_of_ne he] using ih

theorem inverseGroups_congr {τ : Type} [DecidableEq τ] {t t' : List (τ × List (List Selection))}
    (h : TallyEquiv t t') (s : τ) :
    List.Forall₂ (List.Forall₂ SelEquiv) (Object.inverseGroups t s) (Object.inverseGroups t' s) := by
  induction h with
  | nil => exact List.Forall₂.nil
  | @cons p q rest rest' hab _ ih =>
      obtain ⟨hk, hs⟩ := hab
      rcases p with ⟨k, vs⟩
      rcases q with ⟨k', vs'⟩
      cases hk
      unfold Object.inverseGroups at ih ⊢
      by_cases he : k ≠ s
      · simpa [List.filter_cons, he] using List.rel_append hs ih
      · simp only [ne_eq, not_not] at he
        simpa [List.filter_cons, he] using ih

theorem Object.computeSelection_congr {τ : Type} [DecidableEq τ]
    {t t' : List (τ × List (List Selection))} (h : TallyEquiv t t') (s : τ) :
    Object.computeSelection t s = Object.computeSelection t' s := by
  simp only [Object.computeSelection]
  have hg := lookupGroups_congr h s
  have hi := inverseGroups_congr h s
  rw [hg.length_eq, hi.length_eq]
  by_cases hlen : ((List.lookup s t').getD []).length > (Object.inverseGroups t' s).length
  · simp only [hlen, if_true, Object.combine_congr hi]
  · simp only [hlen, if_false, Object.combine_congr hg]

theorem List.map_congr_forall₂ {α β : Type} {l l' : List α} {R : α → α → Prop}
    {f g : α → β} (h : List.Forall₂ R l l') (hfg : ∀ a b, R a b → f a = g b) :
    l.map f = l'.map g := by
  induction h with
  | nil => rfl
  | cons hab _ ih => simp only [List.map_cons, hfg _ _ hab, ih]

/-- `Object.compose` consumes its input objects only through their selector
keys and the observable queries of their selections: observably equivalent
inputs give (structurally) equal composed objects. -/
theorem Object.compose_congr {σ τ : Type} [DecidableEq σ] [DecidableEq τ] (op : List σ → τ)
    {objs objs' : List (PObject σ)} (h : List.Forall₂ ObjEquiv objs objs') :
    Object.compose op objs = Object.compose op objs' := by
  unfold Object.compose
  have ht := tally_congr (Object.iterSelections_congr op h)
  exact List.map_congr_forall₂ ht fun a b hab =>
    Prod.ext hab.1 (by simp only [hab.1, Object.computeSelection_congr ht])

/-- A non-void, non-inverted selection is observably the plain node
selection on its node. -/
theorem SelEquiv.canon_node {A : Selection} {m : Node} (hn : A.getNode = some m)
    (hp : A.invertedQ = false) : SelEquiv A (Selection.node m) :=
  ⟨Selection.isVoid_eq_false_of_getNode hn, by simpa using hp, by simpa using hn⟩

/-- A non-void, inverted selection is observably the inverted node selection
on its node. -/
theorem SelEquiv.canon_inverted {A : Selection} {m : Node} (hn : A.getNode = some m)
    (hp : A.invertedQ = true) : SelEquiv A (Selection.inverted (Selection.node m)) :=
  ⟨Selection.isVoid_eq_false_of_getNode hn, by simpa using hp, by simpa using hn⟩

theorem ObjEquiv.create {A B : Selection} (h : SelEquiv A B) :
    ObjEquiv (Object.create A) (Object.create B) :=
  List.Forall₂.cons ⟨rfl, h⟩ (List.Forall₂.cons ⟨rfl, h.invert⟩ List.Forall₂.nil)

set_option maxHeartbeats 2000000 in
/-- Fully evaluated composition `create(node m) * create(invert(node m))`:
the `True` key carries `difference(m, m)` under a double inversion. -/
theorem Object.mul_create_node_eval (m : Node) :
    Object.mul (Object.create (Selection.node m))
        (Object.create (Selection.invert (Selection.node m)))
      = [(true, Selection.inverted (Selection.inverted (Selection.node (Node.minus m m)))),
         (false, Selection.inverted (Selection.inverted (Selection.inverted
            (Selection.node (Node.minus m m)))))] := rfl

set_option maxHeartbeats 2000000 in
/-- The compile front end accepts the evaluated product object and returns
`difference(m, m)` as root. -/
theorem Object.compileRoot_mul_eval (m : Node) :
    Object.compileRoot
        [(true, Selection.inverted (Selection.inverted (Selection.node (Node.minus m m)))),
         (false, Selection.inverted (Selection.inverted (Selection.inverted
            (Selection.node (Node.minus m m)))))]
      = .ok (Node.minus m m) := rfl

set_option maxHeartbeats 2000000 in
/-- Fully evaluated self-union `create(node m) + create(node m)`. -/
theorem Object.add_create_node_eval (m : Node) :
    Object.add (Object.create (Selection.node m)) (Object.create (Selection.node m))
      = [(true, Selection.inverted (Selection.inverted
            (Selection.node (Node.composite "union()" [m, m])))),
         (false, Selection.inverted (Selection.node (Node.composite "union()" [m, m])))] := rfl

set_option maxHeartbeats 2000000 in
/-- The compile front end on the evaluated self-union: root `union() {m; m}`. -/
theorem Object.compileRoot_add_eval (m : Node) :
    Object.compileRoot
        [(true, Selection.inverted (Selection.inverted
            (Selection.node (Node.composite "union()" [m, m])))),
         (false, Selection.inverted (Selection.node (Node.composite "union()" [m, m])))]
      = .ok (Node.composite "union()" [m, m]) := rfl

set_option maxHeartbeats 2000000 in
/-- Compiling a single created node selection yields the node itself. -/
theorem Object.compileRoot_create_node (m : Node) :
    Object.compileRoot (Object.create (Selection.node m)) = .ok m := rfl

set_option maxHeartbeats 2000000 in
/-- Fully evaluated self-union of an inverted selection. -/
theorem Object.add_create_inverted_eval (m : Node) :
    Object.add (Object.create (Selection.inverted (Selection.node m)))
        (Object.create (Selection.inverted (Selection.node m)))
      = [(true, Selection.inverted (Selection.inverted (Selection.inverted
            (Selection.node (Node.composite "intersection()" [m, m]))))),
         (false, Selection.inverted (Selection.inverted
            (Selection.node (Node.composite "intersection()" [m, m]))))] := rfl

set_option maxHeartbeats 2000000 in
/-- The compile front end rejects the evaluated inverted self-union. -/
theorem Object.compileRoot_add_inverted_eval (m : Node) :
    Object.compileRoot
        [(true, Selection.inverted (Selection.inverted (Selection.inverted
            (Selection.node (Node.composite "intersection()" [m, m]))))),
         (false, Selection.inverted (Selection.inverted
            (Selection.node (Node.composite "intersection()" [m, m]))))]
      = .error "The top-level node is inverted." := rfl

set_option maxHeartbeats 2000000 in
/-- Compiling a created inverted selection is rejected as inverted. -/
theorem Object.compileRoot_create_inverted (m : Node) :
    Object.compileRoot (Object.create (Selection.inverted (Selection.node m)))
      = .error "The top-level node is inverted." := rfl

theorem Node.sizeOf_lt_of_childNodes {c n : Node} (h : c ∈ n.childNodes) :
    sizeOf c < sizeOf n := by
  cases n with
  | primitive t => simp [Node.childNodes] at h
  | composite t cs =>
      simp only [Node.childNodes] at h
      have h1 := List.sizeOf_lt_of_mem h
      have h2 : sizeOf (Node.composite t cs) = 1 + sizeOf t + sizeOf cs := by
        simp [Node.composite.sizeOf_spec]
      omega

theorem StrictSub.sizeOf_lt {d n : Node} (h : StrictSub d n) : sizeOf d < sizeOf n := by
  induction h with
  | base hc => exact Node.sizeOf_lt_of_childNodes hc
  | step _ hc ih => exact lt_trans ih (Node.sizeOf_lt_of_childNodes hc)

theorem StrictSub.irrefl (n : Node) : ¬StrictSub n n := fun h =>
  lt_irrefl _ h.sizeOf_lt

theorem StrictSub.trans {a b c : Node} (h1 : StrictSub a b) (h2 : StrictSub b c) :
    StrictSub a c := by
  induction h2 with
  | base hc => exact .step h1 hc
  | step _ hc ih => exact .step ih hc

theorem StrictSub.not_primitive {d : Node} {t : String} : ¬StrictSub d (Node.primitive t) := by
  intro h
  cases h with
  | base hc => simp [Node.childNodes] at hc
  | step _ hc => simp [Node.childNodes] at hc

theorem WalkOut.listMono {st st' : WalkState} {P : Node → Prop} (h : WalkOut st st' P) :
    ∀ x ∈ st.nodesList, x ∈ st'.nodesList := by
  obtain ⟨Δ, hΔ, _⟩ := h.listExt
  intro x hx
  rw [hΔ]
  exact List.mem_append_left _ hx

theorem WalkOut.mono {st st' : WalkState} {P Q : Node → Prop} (h : WalkOut st st' P)
    (hpq : ∀ y, P y → Q y) : WalkOut st st' Q where
  listExt := by
    obtain ⟨Δ, hΔ, hprop⟩ := h.listExt
    exact ⟨Δ, hΔ, fun y hy => ⟨(hprop y hy).1, hpq y (hprop y hy).2⟩⟩
  setGrow := h.setGrow
  setNew := h.setNew
  reusedNew := h.reusedNew
  inv := h.inv

theorem WalkOut.compose {st st' st'' : WalkState} {P Q : Node → Prop}
    (h1 : WalkOut st st' P) (h2 : WalkOut st' st'' Q) :
    WalkOut st st'' (fun y => P y ∨ Q y) where
  listExt := by
    obtain ⟨Δ1, hΔ1, hp1⟩ := h1.listExt
    obtain ⟨Δ2, hΔ2, hp2⟩ := h2.listExt
    refine ⟨Δ1 ++ Δ2, by rw [hΔ2, hΔ1, List.append_assoc], fun y hy => ?_⟩
    rcases List.mem_append.mp hy with hy1 | hy2
    · exact ⟨(hp1 y hy1).1, Or.inl (hp1 y hy1).2⟩
    · refine ⟨fun hcon => (hp2 y hy2).1 (h1.setGrow y hcon), Or.inr (hp2 y hy2).2⟩
  setGrow := fun x hx => h2.setGrow x (h1.setGrow x hx)
  setNew := by
    intro x hx
    rcases h2.setNew x hx with hx' | hx'
    · rcases h1.setNew x hx' with hx'' | hx''
      · exact Or.inl hx''
      · exact Or.inr (h2.listMono x hx'')
    · exact Or.inr hx'
  reusedNew := by
    intro x hx
    rcases h2.reusedNew x hx with hx' | hx'
    · rcases h1.reusedNew x hx' with hx'' | hx''
      · exact Or.inl hx''
      · exact Or.inr (h2.listMono x hx'')
    · exact Or.inr hx'
  inv := h2.inv

theorem WalkOut.ofId {st : WalkState} (hinv : WalkInv st) (P : Node → Prop) :
    WalkOut st st P where
  listExt := ⟨[], by simp, by simp⟩
  setGrow := fun x hx => hx
  setNew := fun x hx => Or.inl hx
  reusedNew := fun x hx => Or.inl hx
  inv := hinv

theorem WalkOut.pending {st st' : WalkState} {P : Node → Prop} {n : Node}
    (h : WalkOut st st' P) (hp : Pending st n) : Pending st' n := by
  intro p hset hlist
  obtain ⟨Δ, hΔ, _⟩ := h.listExt
  rcases h.setNew p hset with h1 | h1
  · refine hp p h1 fun hcon => hlist ?_
    rw [hΔ]; exact List.mem_append_left _ hcon
  · exact absurd h1 hlist

mutual

theorem walkNodes_out (n : Node) (st : WalkState) (hinv : WalkInv st) (hpend : Pending st n) :
    WalkOut st (walkNodes n st) (fun y => y = n ∨ StrictSub y n) ∧
      n ∈ (walkNodes n st).nodesList := by
  by_cases hmem : n ∈ st.nodesSet
  · have heq : walkNodes n st = { st with reused := insertReused n st.reused } := by
      unfold walkNodes; rw [if_pos hmem]
    have hnl : n ∈ st.nodesList := by
      by_contra hcon
      exact StrictSub.irrefl n (hpend n hmem hcon)
    rw [heq]
    refine ⟨⟨⟨[], by simp, by simp⟩, fun x hx => hx, fun x hx => Or.inl hx, ?_, hinv⟩, hnl⟩
    intro x hx
    unfold insertReused at hx
    by_cases hr : n ∈ st.reused
    · rw [if_pos hr] at hx; exact Or.inl hx
    · rw [if_neg hr] at hx
      rcases List.mem_append.mp hx with hx' | hx'
      · exact Or.inl hx'
      · rw [List.mem_singleton] at hx'; subst hx'; exact Or.inr hnl
  · have hnliststale : n ∉ st.nodesList := fun hcon => hmem (hinv.2.1 n hcon)
    cases n with
    | primitive t =>
        have heq : walkNodes (Node.primitive t) st
            = { st with nodesSet := st.nodesSet ++ [Node.primitive t],
                        nodesList := st.nodesList ++ [Node.primitive t] } := by
          unfold walkNodes; rw [if_neg hmem]
        rw [heq]
        refine ⟨⟨⟨[Node.primitive t], rfl, ?_⟩, ?_, ?_, ?_, ?_, ?_, ?_, ?_⟩, ?_⟩
        · intro y hy; rw [List.mem_singleton] at hy; subst hy
          exact ⟨hmem, Or.inl rfl⟩
        · exact fun x hx => List.mem_append_left _ hx
        · intro x hx
          rcases List.mem_append.mp hx with hx' | hx'
          · exact Or.inl hx'
          · exact Or.inr (List.mem_append_right _ hx')
        · exact fun x hx => Or.inl hx
        · rw [List.nodup_append]
          exact ⟨hinv.1, List.nodup_singleton _, fun a ha hb => by
            rw [List.mem_singleton] at hb; subst hb; exact hnliststale ha⟩
        · intro x hx
          rcases List.mem_append.mp hx with hx' | hx'
          · exact List.mem_append_left _ (hinv.2.1 x hx')
          · exact List.mem_append_right _ hx'
        · intro m hm d hd
          rcases List.mem_append.mp hm with hm' | hm'
          · exact List.mem_append_left _ (hinv.2.2.1 m hm' d hd)
          · rw [List.mem_singleton] at hm'; subst hm'
            exact absurd hd StrictSub.not_primitive
        · rw [List.pairwise_append]
          refine ⟨hinv.2.2.2, List.pairwise_singleton _ _, ?_⟩
          intro a ha b hb
          rw [List.mem_singleton] at hb; subst hb
          intro hcon
          exact hnliststale (hinv.2.2.1 a ha _ hcon)
        · exact List.mem_append_right _ (List.mem_singleton.mpr rfl)
    | composite t cs =>
        have hinv1 : WalkInv { st with nodesSet := st.nodesSet ++ [Node.composite t cs] } :=
          ⟨hinv.1, fun x hx => List.mem_append_left _ (hinv.2.1 x hx), hinv.2.2.1, hinv.2.2.2⟩
        have hpend1 : ∀ c ∈ cs,
            Pending { st with nodesSet := st.nodesSet ++ [Node.composite t cs] } c := by
          intro c hc p hpset hplist
          have hsub : StrictSub c (Node.composite t cs) := .base hc
          rcases List.mem_append.mp hpset with hp1 | hp1
          · exact StrictSub.trans hsub (hpend p hp1 hplist)
          · rw [List.mem_singleton] at hp1; subst hp1; exact hsub
        obtain ⟨h2, hmemcs⟩ :=
          walkList_out cs { st with nodesSet := st.nodesSet ++ [Node.composite t cs] } hinv1 hpend1
        have heq : walkNodes (Node.composite t cs) st
            = { walkList cs { st with nodesSet := st.nodesSet ++ [Node.composite t cs] } with
                  nodesList := (walkList cs { st with
                    nodesSet := st.nodesSet ++ [Node.composite t cs] }).nodesList
                      ++ [Node.composite t cs] } := by
          unfold walkNodes; rw [if_neg hmem]
        obtain ⟨Δ, hΔ, hΔp⟩ := h2.listExt
        have hnotin2 :
            Node.composite t cs ∉ (walkList cs { st with
              nodesSet := st.nodesSet ++ [Node.composite t cs] }).nodesList := by
          rw [hΔ]
          intro hcon
          rcases List.mem_append.mp hcon with hc' | hc'
          · exact hnliststale hc'
          · exact (hΔp _ hc').1 (List.mem_append_right _ (List.mem_singleton.mpr rfl))
        rw [heq]
        have hclosure : ∀ m ∈ (walkList cs { st with
              nodesSet := st.nodesSet ++ [Node.composite t cs] }).nodesList,
            ∀ d, StrictSub d m → d ∈ (walkList cs { st with
              nodesSet := st.nodesSet ++ [Node.composite t cs] }).nodesList :=
          h2.inv.2.2.1
        refine ⟨⟨⟨Δ ++ [Node.composite t cs], by rw [hΔ, List.append_assoc], ?_⟩,
            ?_, ?_, ?_, ?_, ?_, ?_, ?_⟩, ?_⟩
        · intro y hy
          rcases List.mem_append.mp hy with hy' | hy'
          · refine ⟨fun hcon => (hΔp y hy').1 (List.mem_append_left _ hcon), ?_⟩
            rcases (hΔp y hy').2 with ⟨c, hc, hyc⟩
            have hbase : StrictSub c (Node.composite t cs) := .base hc
            rcases hyc with hyc | hyc
            · subst hyc; exact Or.inr hbase
            · exact Or.inr (StrictSub.trans hyc hbase)
          · rw [List.mem_singleton] at hy'; subst hy'
            exact ⟨hmem, Or.inl rfl⟩
        · exact fun x hx => h2.setGrow x (List.mem_append_left _ hx)
        · intro x hx
          rcases h2.setNew x hx with hx' | hx'
          · rcases List.mem_append.mp hx' with hx'' | hx''
            · exact Or.inl hx''
            · rw [List.mem_singleton] at hx''; subst hx''
              exact Or.inr (List.mem_append_right _ (List.mem_singleton.mpr rfl))
          · exact Or.inr (List.mem_append_left _ hx')
        · intro x hx
          rcases h2.reusedNew x hx with hx' | hx'
          · exact Or.inl hx'
          · exact Or.inr (List.mem_append_left _ hx')
        · rw [List.nodup_append]
          exact ⟨h2.inv.1, List.nodup_singleton _, fun a ha hb => by
            rw [List.mem_singleton] at hb; subst hb; exact hnotin2 ha⟩
        · intro x hx
          rcases List.mem_append.mp hx with hx' | hx'
          · exact h2.inv.2.1 x hx'
          · rw [List.mem_singleton] at hx'; subst hx'
            exact h2.setGrow _ (List.mem_append_right _ (List.mem_singleton.mpr rfl))
        · intro m hm d hd
          rcases List.mem_append.mp hm with hm' | hm'
          · exact List.mem_append_left _ (hclosure m hm' d hd)
          · rw [List.mem_singleton] at hm'; subst hm'
            cases hd with
            | base hc => exact List.mem_append_left _ (hmemcs d hc)
            | step hd' hc =>
                exact List.mem_append_left _ (hclosure _ (hmemcs _ hc) d hd')
        · rw [List.pairwise_append]
          refine ⟨h2.inv.2.2.2, List.pairwise_singleton _ _, ?_⟩
          intro a ha b hb
          rw [List.mem_singleton] at hb; subst hb
          intro hcon
          exact hnotin2 (hclosure a ha _ hcon)
        · exact List.mem_append_right _ (List.mem_singleton.mpr rfl)
termination_by (sizeOf n, 0)

theorem walkList_out (cs : List Node) (st : WalkState) (hinv : WalkInv st)
    (hpend : ∀ c ∈ cs, Pending st c) :
    WalkOut st (walkList cs st) (fun y => ∃ c ∈ cs, y = c ∨ StrictSub y c) ∧
      ∀ c ∈ cs, c ∈ (walkList cs st).nodesList := by
  cases cs with
  | nil =>
      have heq : walkList [] st = st := rfl
      rw [heq]
      exact ⟨WalkOut.ofId hinv _, by simp⟩
  | cons c rest =>
      obtain ⟨h1, hc1⟩ := walkNodes_out c st hinv (hpend c (List.mem_cons_self c rest))
      have hpend' : ∀ c' ∈ rest, Pending (walkNodes c st) c' := fun c' hc' =>
        h1.pending (hpend c' (List.mem_cons_of_mem c hc'))
      obtain ⟨h2, hrest⟩ := walkList_out rest (walkNodes c st) h1.inv hpend'
      have heq : walkList (c :: rest) st = walkList rest (walkNodes c st) := rfl
      rw [heq]
      constructor
      · refine (h1.compose h2).mono ?_
        rintro y (hy | ⟨c', hc', hy⟩)
        · exact ⟨c, List.mem_cons_self c rest, hy⟩
        · exact ⟨c', List.mem_cons_of_mem c hc', hy⟩
      · intro c' hc'
        rcases List.mem_cons.mp hc' with hc'' | hc''
        · subst hc''; exact h2.listMono c' hc1
        · exact hrest c' hc''
termination_by (sizeOf cs, 1)

end

/-- The empty traversal state satisfies the invariant. -/
theorem WalkInv.empty : WalkInv ⟨[], [], []⟩ :=
  ⟨List.nodup_nil, by simp, by simp, List.Pairwise.nil⟩

/-- Summary facts about the completed traversal from the root: the
completion list is duplicate-free, closed under subterms, lists every strict
subterm before the node containing it, contains the root, and contains every
node marked reused. -/
theorem walk_root_facts (root : Node) :
    (walkNodes root ⟨[], [], []⟩).nodesList.Nodup ∧
    (∀ m ∈ (walkNodes root ⟨[], [], []⟩).nodesList, ∀ d, StrictSub d m →
      d ∈ (walkNodes root ⟨[], [], []⟩).nodesList) ∧
    (walkNodes root ⟨[], [], []⟩).nodesList.Pairwise (fun a b => ¬StrictSub b a) ∧
    root ∈ (walkNodes root ⟨[], [], []⟩).nodesList ∧
    (∀ x ∈ (walkNodes root ⟨[], [], []⟩).reused, x ∈ (walkNodes root ⟨[], [], []⟩).nodesList) := by
  obtain ⟨hout, hmem⟩ := walkNodes_out root ⟨[], [], []⟩ WalkInv.empty (by intro p hp; simp at hp)
  refine ⟨hout.inv.1, hout.inv.2.2.1, hout.inv.2.2.2, hmem, ?_⟩
  intro x hx
  rcases hout.reusedNew x hx with hx' | hx'
  · simp at hx'
  · exact hx'

/-- Every module allocated by the assignment loop is keyed by a node of the
processed list. -/
theorem numberModules_nodes_mem (reused : List Node) :
    ∀ (rev : List Node) (k : Nat) (m : String × Node),
      m ∈ (numberModules reused k rev).1 → m.2 ∈ rev := by
  intro rev
  induction rev with
  | nil => intro k m hm; simp [numberModules] at hm
  | cons h rest ih =>
      intro k m hm
      unfold numberModules at hm
      by_cases hr : h ∈ reused
      · rw [if_pos hr] at hm
        rcases List.mem_cons.mp hm with hm' | hm'
        · subst hm'; exact List.mem_cons_self _ _
        · exact List.mem_cons_of_mem _ (ih (k + 1) m hm')
      · rw [if_neg hr] at hm
        exact List.mem_cons_of_mem _ (ih k m hm)

/-- The nodes of the allocated modules are exactly the reused elements of
the processed list, in processing order. -/
theorem numberModules_nodes_eq_filter (reused : List Node) :
    ∀ (rev : List Node) (k : Nat),
      (numberModules reused k rev).1.map (·.2) = rev.filter (· ∈ reused) := by
  intro rev
  induction rev with
  | nil => intro k; simp [numberModules]
  | cons h rest ih =>
      intro k
      unfold numberModules
      by_cases hr : h ∈ reused
      · rw [if_pos hr]
        simp only [List.map_cons, List.filter_cons]
        rw [if_pos (by simpa using hr)]
        simp [ih]
      · rw [if_neg hr]
        simp only [List.filter_cons]
        rw [if_neg (by simpa using hr)]
        exact ih k

/-- A reused node of the processed (duplicate-free) list gets exactly one
module, and the replacement map sends it to that module's reference text. -/
theorem numberModules_lookup (reused : List Node) {n : Node} (hn : n ∈ reused) :
    ∀ (rev : List Node) (k : Nat), rev.Nodup → n ∈ rev →
      ∃ name, (name, n) ∈ (numberModules reused k rev).1 ∧
        List.lookup n (numberModules reused k rev).2 = some (some (strCall0 name)) := by
  intro rev
  induction rev with
  | nil => intro k _ hmem; simp at hmem
  | cons h rest ih =>
      intro k hnodup hmem
      unfold numberModules
      by_cases he : n = h
      · subst he
        rw [if_pos hn]
        refine ⟨"node_" ++ toString (k + 1), List.mem_cons_self _ _, ?_⟩
        simp [List.lookup]
      · rcases List.mem_cons.mp hmem with he' | hmem'
        · exact absurd he' he
        · have hnodup' := hnodup.of_cons
          by_cases hr : h ∈ reused
          · rw [if_pos hr]
            obtain ⟨name, hm, hl⟩ := ih (k + 1) hnodup' hmem'
            refine ⟨name, List.mem_cons_of_mem _ hm, ?_⟩
            simp [List.lookup, beq_false_of_ne he, hl]
          · rw [if_neg hr]
            obtain ⟨name, hm, hl⟩ := ih k hnodup' hmem'
            refine ⟨name, hm, ?_⟩
            simp [List.lookup, beq_false_of_ne he, hl]

/-- If a node does not appear in the processed list, no module is allocated
for it. -/
theorem numberModules_filter_nil (reused : List Node) {n : Node} :
    ∀ (rev : List Node) (k : Nat), n ∉ rev →
      (numberModules reused k rev).1.filter (fun m => m.2 = n) = [] := by
  intro rev
  induction rev with
  | nil => intro k _; simp [numberModules]
  | cons h rest ih =>
      intro k hmem
      have hne : h ≠ n := fun hcon => hmem (hcon ▸ List.mem_cons_self h rest)
      have hrest : n ∉ rest := fun hcon => hmem (List.mem_cons_of_mem h hcon)
      unfold numberModules
      by_cases hr : h ∈ reused
      · rw [if_pos hr]
        simp only [List.filter_cons]
        rw [if_neg (by simpa using hne)]
        exact ih (k + 1) hrest
      · rw [if_neg hr]
        exact ih k hrest

/-- A reused node of the duplicate-free processed list gets exactly one
module. -/
theorem numberModules_count_one (reused : List Node) {n : Node} (hn : n ∈ reused) :
    ∀ (rev : List Node) (k : Nat), rev.Nodup → n ∈ rev →
      ((numberModules reused k rev).1.filter (fun m => m.2 = n)).length = 1 := by
  intro rev
  induction rev with
  | nil => intro k _ hmem; simp at hmem
  | cons h rest ih =>
      intro k hnodup hmem
      unfold numberModules
      by_cases he : h = n
      · subst he
        rw [if_pos hn]
        simp only [List.filter_cons]
        rw [if_pos (by simp)]
        have hnotin : h ∉ rest := (List.nodup_cons.mp hnodup).1
        rw [numberModules_filter_nil reused rest (k + 1) hnotin]
        simp
      · have hmem' : n ∈ rest := by
          rcases List.mem_cons.mp hmem with he' | hm'
          · exact absurd he'.symm he
          · exact hm'
        have hnodup' := hnodup.of_cons
        by_cases hr : h ∈ reused
        · rw [if_pos hr]
          simp only [List.filter_cons]
          rw [if_neg (by simpa using he)]
          exact ih (k + 1) hnodup' hmem'
        · rw [if_neg hr]
          exact ih k hnodup' hmem'

mutual

/-- Every node referenced from the rendering of `m` is a strict subterm of `m`. -/
theorem refNodes_strictSub (repl : List (Node × Option String)) (m x : Node)
    (hx : x ∈ Node.refNodes repl m) : StrictSub x m := by
  cases m with
  | primitive t => simp [Node.refNodes] at hx
  | composite t cs =>
      unfold Node.refNodes at hx
      obtain ⟨c, hc, hxc⟩ := refNodesList_strictSub repl cs x hx
      rcases hxc with hxc | hxc
      · subst hxc; exact .base (by simpa [Node.childNodes] using hc)
      · exact StrictSub.trans hxc (.base (by simpa [Node.childNodes] using hc))
termination_by (sizeOf m, 1)

/-- List version of `refNodes_strictSub`. -/
theorem refNodesList_strictSub (repl : List (Node × Option String)) (cs : List Node) (x : Node)
    (hx : x ∈ Node.refNodesList repl cs) : ∃ c ∈ cs, x = c ∨ StrictSub x c := by
  cases cs with
  | nil => simp [Node.refNodesList] at hx
  | cons c rest =>
      unfold Node.refNodesList at hx
      rcases List.mem_append.mp hx with hx' | hx'
      · rcases hlook : (List.lookup c repl).getD none with _ | r
        · rw [hlook] at hx'
          have hsub := refNodes_strictSub repl c x hx'
          exact ⟨c, List.mem_cons_self c rest, Or.inr hsub⟩
        · rw [hlook] at hx'
          rw [List.mem_singleton] at hx'
          exact ⟨c, List.mem_cons_self c rest, Or.inl hx'⟩
      · obtain ⟨c', hc', hxc⟩ := refNodesList_strictSub repl rest x hx'
        exact ⟨c', List.mem_cons_of_mem c hc', hxc⟩
termination_by (sizeOf cs, 0)

end

theorem Node.eq_iff_eqSpec (a b : Node) : a = b ↔ Node.eqSpec a b := by
  cases a <;> cases b <;> simp [Node.eqSpec]

/-- `compile_scad`'s front end also only consumes the observable queries. -/
theorem Object.compileRoot_congr {o o' : PObject Bool} (h : ObjEquiv o o') :
    Object.compileRoot o = Object.compileRoot o' := by
  unfold Object.compileRoot Object.rootSelection
  rw [Object.compose_congr boolClassify (List.Forall₂.cons h List.Forall₂.nil)]

/-- Geometric content of self-union: `union() {m; m}` denotes the same point
set as `m`. -/
theorem Node.denote_union_pair {α : Type} (p : String → Set α)
    (c : String → List (Set α) → Set α) (m : Node) :
    Node.denote p c (Node.composite "union()" [m, m]) = Node.denote p c m := by
  have h : Node.denoteList p c [m, m] = [Node.denote p c m, Node.denote p c m] := by
    simp [Node.denoteList]
  simp only [Node.denote, h, strCall0]
  rw [if_pos (show "union()" = "union" ++ "()" from rfl)]
  simp [setUnionAll]

/-- The modules allocated for a root, in allocation order, are never
ordered with an earlier module's node inside a later module's node. -/
theorem modules_pairwise_not_sub (root : Node) :
    ((numberModules (walkNodes root ⟨[], [], []⟩).reused 0
        (walkNodes root ⟨[], [], []⟩).nodesList.reverse).1).Pairwise
      (fun a b => ¬StrictSub a.2 b.2) := by
  obtain ⟨hnd, hcl, hpw, hroot, hreused⟩ := walk_root_facts root
  have hrevpw : (walkNodes root ⟨[], [], []⟩).nodesList.reverse.Pairwise
      (fun a b => ¬StrictSub a b) := by
    rw [List.pairwise_reverse]
    exact hpw
  have hfil := hrevpw.filter (· ∈ (walkNodes root ⟨[], [], []⟩).reused)
  rw [← numberModules_nodes_eq_filter (walkNodes root ⟨[], [], []⟩).reused
    (walkNodes root ⟨[], [], []⟩).nodesList.reverse 0] at hfil
  exact List.pairwise_map.mp hfil

/-- Keys of the map built by `_tally` are duplicate-free. -/
theorem tallyInsert_keys {τ α : Type} [DecidableEq τ] (k : τ) (v : α) :
    ∀ acc : List (τ × List α),
      (tallyInsert k v acc).map (·.1)
        = if k ∈ acc.map (·.1) then acc.map (·.1) else acc.map (·.1) ++ [k] := by
  intro acc
  induction acc with
  | nil => simp [tallyInsert]
  | cons p rest ih =>
      rcases p with ⟨k', vs⟩
      unfold tallyInsert
      by_cases he : k' = k
      · subst he
        simp [List.mem_cons]
      · rw [if_neg he]
        simp only [List.map_cons, ih]
        by_cases hmem : k ∈ rest.map (·.1)
        · rw [if_pos hmem, if_pos (by simp [hmem])]
        · rw [if_neg hmem, if_neg (by simp [hmem, Ne.symm he])]
          simp

theorem tally_keys_nodup {τ α : Type} [DecidableEq τ] (l : List (τ × α)) :
    ((tally l).map (·.1)).Nodup := by
  unfold tally
  suffices hgen : ∀ acc : List (τ × List α), (acc.map (·.1)).Nodup →
      ((l.foldl (fun acc kv => tallyInsert kv.1 kv.2 acc) acc).map (·.1)).Nodup by
    exact hgen [] (by simp)
  induction l with
  | nil => intro acc hacc; exact hacc
  | cons kv rest ih =>
      intro acc hacc
      simp only [List.foldl_cons]
      refine ih _ ?_
      rw [tallyInsert_keys]
      by_cases hmem : kv.1 ∈ acc.map (·.1)
      · rw [if_pos hmem]; exact hacc
      · rw [if_neg hmem]
        rw [List.nodup_append]
        exact ⟨hacc, List.nodup_singleton _, fun a ha hb => by
          rw [List.mem_singleton] at hb; subst hb; exact hmem ha⟩

/-- In an association list with duplicate-free keys, membership determines
the lookup. -/
theorem lookup_eq_of_mem {τ α : Type} [DecidableEq τ] {s : τ} {v : α} :
    ∀ l : List (τ × α), (l.map (·.1)).Nodup → (s, v) ∈ l → List.lookup s l = some v := by
  intro l
  induction l with
  | nil => intro _ hmem; simp at hmem
  | cons p rest ih =>
      rcases p with ⟨k, w⟩
      intro hnodup hmem
      rcases List.mem_cons.mp hmem with hm | hm
      · rw [Prod.mk.injEq] at hm
        obtain ⟨h1, h2⟩ := hm
        subst h1; subst h2
        simp [List.lookup]
      · have hne : s ≠ k := by
          intro hcon
          subst hcon
          have : s ∈ rest.map (·.1) := by
            exact List.mem_map.mpr ⟨(s, v), hm, rfl⟩
          simp only [List.map_cons, List.nodup_cons] at hnodup
          exact hnodup.1 this
        have hnodup' : (rest.map (·.1)).Nodup := by
          simp only [List.map_cons, List.nodup_cons] at hnodup
          exact hnodup.2
        simp [List.lookup, beq_false_of_ne hne, ih hnodup' hm]

/-- Looking a present key up in the composed object returns its computed
selection. -/
theorem lookup_compose_map {τ : Type} [DecidableEq τ] {s : τ}
    (t : List (τ × List (List Selection))) (f : τ → Selection)
    (hnodup : (t.map (·.1)).Nodup) (hmem : s ∈ t.map (·.1)) :
    List.lookup s (t.map fun kv => (kv.1, f kv.1)) = some (f s) := by
  induction t with
  | nil => simp at hmem
  | cons p rest ih =>
      rcases p with ⟨k, vs⟩
      by_cases he : s = k
      · subst he
        simp [List.lookup]
      · simp only [List.map_cons, List.nodup_cons] at hnodup
        have hmem' : s ∈ rest.map (·.1) := by
          rcases List.mem_cons.mp hmem with hm | hm
          · exact absurd hm he
          · exact hm
        simp [List.lookup, beq_false_of_ne he, ih hnodup.2 hmem']

/-- Claim C1, counterexample to the claim as stated: for the concrete
non-void, non-inverted selection on `cube()`, the `True`-key selection of
`create(A) * create(invert(A))` is NOT void (it references
`difference(cube(), cube())`), and `compile_scad` does not raise the
void-root error but accepts the object. -/
theorem claim_C1_counterexample :
    (Object.getSelection
        (Object.mul (Object.create (Selection.node (Node.primitive "cube()")))
          (Object.create (Selection.invert (Selection.node (Node.primitive "cube()")))))
        true).isVoid = false ∧
    Object.compileRoot
        (Object.mul (Object.create (Selection.node (Node.primitive "cube()")))
          (Object.create (Selection.invert (Selection.node (Node.primitive "cube()")))))
      ≠ .error "The top-level node is void." := by
  constructor
  · decide
  · decide

/-- Claim C1, amended: for every non-void, non-inverted Selection `A` with
node `m`, the composition `create(A) * create(invert(A))` yields an Object
whose `True`-key Selection is non-void — it references
`difference(m, m)` (the shape minus itself, symbolically non-void) — and
`compile_scad` accepts it with root `difference(m, m)` instead of raising
the fatal void-root error. -/
theorem claim_C1_product_with_complement (A : Selection) (m : Node)
    (hn : A.getNode = some m) (hp : A.invertedQ = false) :
    (Object.getSelection
        (Object.mul (Object.create A) (Object.create (Selection.invert A))) true).isVoid = false ∧
    Object.compileRoot (Object.mul (Object.create A) (Object.create (Selection.invert A)))
      = .ok (Node.minus m m) := by
  have hequiv := SelEquiv.canon_node hn hp
  have h1 : Object.mul (Object.create A) (Object.create (Selection.invert A))
      = Object.mul (Object.create (Selection.node m))
          (Object.create (Selection.invert (Selection.node m))) :=
    Object.compose_congr _ (List.Forall₂.cons (ObjEquiv.create hequiv)
      (List.Forall₂.cons (ObjEquiv.create hequiv.invert) List.Forall₂.nil))
  rw [h1, Object.mul_create_node_eval]
  exact ⟨rfl, Object.compileRoot_mul_eval m⟩

/-- Claim C1 witness at `A = NodeSelection(cube())`. -/
theorem claim_C1_witness :
    (Selection.node (Node.primitive "cube()")).getNode = some (Node.primitive "cube()") ∧
    (Selection.node (Node.primitive "cube()")).invertedQ = false ∧
    ((Object.getSelection
        (Object.mul (Object.create (Selection.node (Node.primitive "cube()")))
          (Object.create (Selection.invert (Selection.node (Node.primitive "cube()")))))
        true).isVoid = false ∧
      Object.compileRoot
          (Object.mul (Object.create (Selection.node (Node.primitive "cube()")))
            (Object.create (Selection.invert (Selection.node (Node.primitive "cube()")))))
        = .ok (Node.minus (Node.primitive "cube()") (Node.primitive "cube()"))) :=
  ⟨by decide, by decide,
    claim_C1_product_with_complement (Selection.node (Node.primitive "cube()"))
      (Node.primitive "cube()") (by decide) (by decide)⟩

/-- Claim C2, counterexample to the claim as stated: with nested reuse
(`union() { b(){c;c}; b(){c;c} }`), module `node_1`'s declaration contains
the call `node_2();` while `node_2`'s declaration block appears later in the
emitted text — the emitted order is exactly the reverse of
declaration-before-use. -/
theorem claim_C2_counterexample :
    Object.compileScad (Object.create (Selection.node
        (Node.composite "union()"
          [Node.composite "b()" [Node.primitive "c()", Node.primitive "c()"],
           Node.composite "b()" [Node.primitive "c()", Node.primitive "c()"]])))
      = .ok ["union() \x7b", "\tnode_1();", "\tnode_1();", "\x7d", "",
             "module node_1()", "\tb() \x7b", "\t\tnode_2();", "\t\tnode_2();", "\t\x7d", "",
             "module node_2()", "\tc();"] ∧
    (numberModules
        (walkNodes (Node.composite "union()"
          [Node.composite "b()" [Node.primitive "c()", Node.primitive "c()"],
           Node.composite "b()" [Node.primitive "c()", Node.primitive "c()"]]) ⟨[], [], []⟩).reused
        0
        (walkNodes (Node.composite "union()"
          [Node.composite "b()" [Node.primitive "c()", Node.primitive "c()"],
           Node.composite "b()" [Node.primitive "c()", Node.primitive "c()"]]) ⟨[], [], []⟩).nodesList.reverse).1.map (·.1)
      = ["node_1", "node_2"] ∧
    Node.primitive "c()" ∈ Node.refNodes
      (numberModules
        (walkNodes (Node.composite "union()"
          [Node.composite "b()" [Node.primitive "c()", Node.primitive "c()"],
           Node.composite "b()" [Node.primitive "c()", Node.primitive "c()"]]) ⟨[], [], []⟩).reused
        0
        (walkNodes (Node.composite "union()"
          [Node.composite "b()" [Node.primitive "c()", Node.primitive "c()"],
           Node.composite "b()" [Node.primitive "c()", Node.primitive "c()"]]) ⟨[], [], []⟩).nodesList.reverse).2
      (Node.composite "b()" [Node.primitive "c()", Node.primitive "c()"]) := by
  refine ⟨by decide, by decide, by decide⟩

/-- Claim C2, amended: the emitted order is the opposite of the claimed one —
the root program comes first and modules are appended after it in allocation
order, so every module call textually precedes the called module's
declaration; equivalently, no module's declaration ever contains a call to a
module declared EARLIER in the text: for any two modules in allocation
(= declaration) order, the earlier module's node is never among the module
references rendered inside the later module's body. -/
theorem claim_C2_declaration_order (root : Node) :
    ((numberModules (walkNodes root ⟨[], [], []⟩).reused 0
        (walkNodes root ⟨[], [], []⟩).nodesList.reverse).1).Pairwise
      (fun a b => a.2 ∉ Node.refNodes
        (numberModules (walkNodes root ⟨[], [], []⟩).reused 0
          (walkNodes root ⟨[], [], []⟩).nodesList.reverse).2 b.2) := by
  refine (modules_pairwise_not_sub root).imp ?_
  intro a b hnot hmem
  exact hnot (refNodes_strictSub _ _ _ hmem)

/-- Claim C3, counterexample to the union half as stated: the union of
`NodeSelection(cube())` with an inverted-void selection is VOID, while the
union of the remaining element alone is not — the inverted-void term is not
absorbed, it annihilates the union. -/
theorem claim_C3_counterexample :
    (Selection.union [Selection.node (Node.primitive "cube()"),
        Selection.inverted Selection.void]).isVoid = true ∧
    (Selection.union [Selection.node (Node.primitive "cube()")]).isVoid = false := by
  exact ⟨by decide, by decide⟩

/-- Claim C3, amended: a non-inverted void element annihilates
`Selection.intersect` (as claimed); an inverted-void element does NOT leave
`Selection.union` unchanged — mapping `invert` over the inputs turns it into
a non-inverted void that annihilates the inner intersection, so the whole
union collapses to `invert(void_selection)` regardless of the other
elements. -/
theorem claim_C3_void_absorption (L1 L2 : List Selection) (v : Selection)
    (hv : v.isVoid = true) :
    (v.invertedQ = false → Selection.intersect (L1 ++ v :: L2) = Selection.void) ∧
    (v.invertedQ = true →
      Selection.union (L1 ++ v :: L2) = Selection.inverted Selection.void) := by
  constructor
  · intro hp
    exact Selection.intersect_void_mem hv hp L1 L2
  · intro hp
    exact Selection.union_invvoid_mem hv hp L1 L2

/-- Claim C3 witness: the intersect half at `[cube, void]` and the union
half at `[cube, invert(void)]`. -/
theorem claim_C3_witness :
    (Selection.void.isVoid = true ∧
      Selection.intersect [Selection.node (Node.primitive "cube()"), Selection.void]
        = Selection.void) ∧
    ((Selection.inverted Selection.void).isVoid = true ∧
      Selection.union [Selection.node (Node.primitive "cube()"),
          Selection.inverted Selection.void]
        = Selection.inverted Selection.void) :=
  ⟨⟨by decide, (claim_C3_void_absorption [Selection.node (Node.primitive "cube()")] []
      Selection.void (by decide)).1 (by decide)⟩,
   ⟨by decide, (claim_C3_void_absorption [Selection.node (Node.primitive "cube()")] []
      (Selection.inverted Selection.void) (by decide)).2 (by decide)⟩⟩

/-- Claim C4, counterexample to the no-growth half as stated: double
inversion of `NodeSelection(cube())` grows the representation from one
object to three nested objects. -/
theorem claim_C4_counterexample :
    ¬(Selection.invert (Selection.invert (Selection.node (Node.primitive "cube()")))).reprSize
      = (Selection.node (Node.primitive "cube()")).reprSize := by
  decide

/-- Claim C4, amended: `invert(invert(x))` is observably equivalent to `x`
in the `void`, effective-polarity and `node` queries, but the representation
is NOT collapsed by flag toggling: `Selection.invert` always nests a fresh
`InvertedSelection` wrapper, so each double inversion grows the
representation by exactly two wrappers. -/
theorem claim_C4_double_inversion (x : Selection) :
    (Selection.invert (Selection.invert x)).isVoid = x.isVoid ∧
    (Selection.invert (Selection.invert x)).invertedQ = x.invertedQ ∧
    (Selection.invert (Selection.invert x)).getNode = x.getNode ∧
    (Selection.invert (Selection.invert x)).reprSize = x.reprSize + 2 := by
  refine ⟨by simp, by simp, by simp, by simp [Selection.reprSize]⟩

/-- Claim C5, confirmed: for every non-void Selection `A`, compiling
`create(A) + create(A)` and compiling `create(A)` produce the same outcome
up to geometry — for non-inverted `A` both succeed and the self-union root
`union() {m; m}` denotes the same point set as the single root `m` under any
interpretation of the primitives and of the non-boolean operators; for
inverted `A` both fail with the same inverted-root error. -/
theorem claim_C5_self_union {α : Type} (A : Selection) (h : A.isVoid = false)
    (p : String → Set α) (c : String → List (Set α) → Set α) :
    (Object.compileRoot (Object.add (Object.create A) (Object.create A))).map (Node.denote p c)
      = (Object.compileRoot (Object.create A)).map (Node.denote p c) := by
  obtain ⟨m, hm⟩ := Selection.getNode_isSome_of h
  cases hp : A.invertedQ with
  | false =>
      have hequiv := SelEquiv.canon_node hm hp
      have h1 : Object.add (Object.create A) (Object.create A)
          = Object.add (Object.create (Selection.node m)) (Object.create (Selection.node m)) :=
        Object.compose_congr _ (List.Forall₂.cons (ObjEquiv.create hequiv)
          (List.Forall₂.cons (ObjEquiv.create hequiv) List.Forall₂.nil))
      rw [h1, Object.add_create_node_eval, Object.compileRoot_add_eval,
        Object.compileRoot_congr (ObjEquiv.create hequiv), Object.compileRoot_create_node]
      simp only [Except.map]
      rw [Node.denote_union_pair]
  | true =>
      have hequiv := SelEquiv.canon_inverted hm hp
      have h1 : Object.add (Object.create A) (Object.create A)
          = Object.add (Object.create (Selection.inverted (Selection.node m)))
              (Object.create (Selection.inverted (Selection.node m))) :=
        Object.compose_congr _ (List.Forall₂.cons (ObjEquiv.create hequiv)
          (List.Forall₂.cons (ObjEquiv.create hequiv) List.Forall₂.nil))
      rw [h1, Object.add_create_inverted_eval, Object.compileRoot_add_inverted_eval,
        Object.compileRoot_congr (ObjEquiv.create hequiv), Object.compileRoot_create_inverted]

/-- Claim C5 witness at `A = NodeSelection(cube())` with the trivial
interpretation over `Nat` points. -/
theorem claim_C5_witness :
    (Selection.node (Node.primitive "cube()")).isVoid = false ∧
    (Object.compileRoot (Object.add (Object.create (Selection.node (Node.primitive "cube()")))
          (Object.create (Selection.node (Node.primitive "cube()"))))).map
        (Node.denote (fun _ => (∅ : Set Nat)) (fun _ _ => ∅))
      = (Object.compileRoot (Object.create (Selection.node (Node.primitive "cube()")))).map
        (Node.denote (fun _ => (∅ : Set Nat)) (fun _ _ => ∅)) :=
  ⟨by decide, claim_C5_self_union (Selection.node (Node.primitive "cube()")) (by decide)
    (fun _ => (∅ : Set Nat)) (fun _ _ => ∅)⟩

/-- Claim C6, counterexample to the dedup half as stated: in
`union() { b(){x}; b(){x} }` the primitive `x()` occurs at two distinct,
structurally identical branches, yet the compiled output contains NO module
declaration for it (its duplication is hidden inside the deduplicated larger
branch `b(){x}`, the only node the walk marks reused). -/
theorem claim_C6_counterexample :
    Node.occCount (Node.primitive "x()")
        (Node.composite "union()"
          [Node.composite "b()" [Node.primitive "x()"],
           Node.composite "b()" [Node.primitive "x()"]]) = 2 ∧
    ((numberModules
        (walkNodes (Node.composite "union()"
          [Node.composite "b()" [Node.primitive "x()"],
           Node.composite "b()" [Node.primitive "x()"]]) ⟨[], [], []⟩).reused
        0
        (walkNodes (Node.composite "union()"
          [Node.composite "b()" [Node.primitive "x()"],
           Node.composite "b()" [Node.primitive "x()"]]) ⟨[], [], []⟩).nodesList.reverse).1.filter
      (fun m => m.2 = Node.primitive "x()")).length = 0 := by
  exact ⟨by decide, by decide⟩

/-- Claim C6, amended: Node equality is structural exactly as claimed
(texts for primitives, text and recursively compared child sequences for
composites, nothing across variants); and deduplication holds for every
node the traversal marks as reused (encountered a second time by the
memoized walk): exactly one module is allocated for it and the replacement
map sends every rendered occurrence of it to that module's reference call.
A structure duplicated only inside a larger duplicated subtree is not
reused and gets no module of its own. -/
theorem claim_C6_structural_dedup :
    (∀ a b : Node, a = b ↔ Node.eqSpec a b) ∧
    (∀ root n, n ∈ (walkNodes root ⟨[], [], []⟩).reused →
      ((numberModules (walkNodes root ⟨[], [], []⟩).reused 0
          (walkNodes root ⟨[], [], []⟩).nodesList.reverse).1.filter
        (fun m => m.2 = n)).length = 1 ∧
      ∃ name, (name, n) ∈ (numberModules (walkNodes root ⟨[], [], []⟩).reused 0
          (walkNodes root ⟨[], [], []⟩).nodesList.reverse).1 ∧
        List.lookup n (numberModules (walkNodes root ⟨[], [], []⟩).reused 0
          (walkNodes root ⟨[], [], []⟩).nodesList.reverse).2
          = some (some (strCall0 name))) := by
  refine ⟨Node.eq_iff_eqSpec, ?_⟩
  intro root n hn
  obtain ⟨hnd, hcl, hpw, hroot, hreused⟩ := walk_root_facts root
  have hmem : n ∈ (walkNodes root ⟨[], [], []⟩).nodesList := hreused n hn
  have hmemrev : n ∈ (walkNodes root ⟨[], [], []⟩).nodesList.reverse :=
    List.mem_reverse.mpr hmem
  have hndrev : (walkNodes root ⟨[], [], []⟩).nodesList.reverse.Nodup :=
    List.nodup_reverse.mpr hnd
  exact ⟨numberModules_count_one _ hn _ 0 hndrev hmemrev,
    numberModules_lookup _ hn _ 0 hndrev hmemrev⟩

/-- Claim C6 witness: the reused branch `b(){x}` of the counterexample root
gets exactly one module and is replaced by its reference. -/
theorem claim_C6_witness :
    (Node.composite "b()" [Node.primitive "x()"])
      ∈ (walkNodes (Node.composite "union()"
          [Node.composite "b()" [Node.primitive "x()"],
           Node.composite "b()" [Node.primitive "x()"]]) ⟨[], [], []⟩).reused ∧
    (((numberModules
        (walkNodes (Node.composite "union()"
          [Node.composite "b()" [Node.primitive "x()"],
           Node.composite "b()" [Node.primitive "x()"]]) ⟨[], [], []⟩).reused
        0
        (walkNodes (Node.composite "union()"
          [Node.composite "b()" [Node.primitive "x()"],
           Node.composite "b()" [Node.primitive "x()"]]) ⟨[], [], []⟩).nodesList.reverse).1.filter
      (fun m => m.2 = Node.composite "b()" [Node.primitive "x()"])).length = 1 ∧
    ∃ name, (name, Node.composite "b()" [Node.primitive "x()"])
        ∈ (numberModules
            (walkNodes (Node.composite "union()"
              [Node.composite "b()" [Node.primitive "x()"],
               Node.composite "b()" [Node.primitive "x()"]]) ⟨[], [], []⟩).reused
            0
            (walkNodes (Node.composite "union()"
              [Node.composite "b()" [Node.primitive "x()"],
               Node.composite "b()" [Node.primitive "x()"]]) ⟨[], [], []⟩).nodesList.reverse).1 ∧
      List.lookup (Node.composite "b()" [Node.primitive "x()"])
          (numberModules
            (walkNodes (Node.composite "union()"
              [Node.composite "b()" [Node.primitive "x()"],
               Node.composite "b()" [Node.primitive "x()"]]) ⟨[], [], []⟩).reused
            0
            (walkNodes (Node.composite "union()"
              [Node.composite "b()" [Node.primitive "x()"],
               Node.composite "b()" [Node.primitive "x()"]]) ⟨[], [], []⟩).nodesList.reverse).2
        = some (some (strCall0 name))) :=
  ⟨by decide,
    claim_C6_structural_dedup.2
      (Node.composite "union()"
        [Node.composite "b()" [Node.primitive "x()"],
         Node.composite "b()" [Node.primitive "x()"]])
      (Node.composite "b()" [Node.primitive "x()"]) (by decide)⟩

/-- Claim C7, confirmed: in `Object.compose`, for every result selector `s`
with tallied group list `gs`, the stored Selection is
`invert(combine(inverseGroups))` when the number of groups mapping to `s`
exceeds the total number of groups mapping to every other result selector,
and `combine(gs)` (union of the intersection of each group) otherwise. -/
theorem claim_C7_term_count_minimization {σ τ : Type} [DecidableEq σ] [DecidableEq τ]
    (op : List σ → τ) (objects : List (PObject σ)) (s : τ) (gs : List (List Selection))
    (hmem : (s, gs) ∈ tally (Object.iterSelections op objects)) :
    List.lookup s (Object.compose op objects)
      = some (if gs.length
            > (Object.inverseGroups (tally (Object.iterSelections op objects)) s).length
          then Selection.invert (Object.combine
            (Object.inverseGroups (tally (Object.iterSelections op objects)) s))
          else Object.combine gs) := by
  have hnodup := tally_keys_nodup (Object.iterSelections op objects)
  have hkey : s ∈ (tally (Object.iterSelections op objects)).map (·.1) :=
    List.mem_map.mpr ⟨(s, gs), hmem, rfl⟩
  unfold Object.compose
  rw [lookup_compose_map _ _ hnodup hkey]
  simp only [Object.computeSelection, lookup_eq_of_mem _ hnodup hmem, Option.getD_some]

/-- Claim C7 witness: composing the `bool` classification over a single
created cube object; the `True` selector has one group and one inverse
group, so the direct branch is taken. -/
theorem claim_C7_witness :
    (true, [[Selection.node (Node.primitive "cube()")]])
      ∈ tally (Object.iterSelections boolClassify
          [Object.create (Selection.node (Node.primitive "cube()"))]) ∧
    List.lookup true (Object.compose boolClassify
        [Object.create (Selection.node (Node.primitive "cube()"))])
      = some (if [[Selection.node (Node.primitive "cube()")]].length
            > (Object.inverseGroups (tally (Object.iterSelections boolClassify
                [Object.create (Selection.node (Node.primitive "cube()"))])) true).length
          then Selection.invert (Object.combine
            (Object.inverseGroups (tally (Object.iterSelections boolClassify
              [Object.create (Selection.node (Node.primitive "cube()"))])) true))
          else Object.combine [[Selection.node (Node.primitive "cube()")]]) :=
  ⟨by decide,
    claim_C7_term_count_minimization boolClassify
      [Object.create (Selection.node (Node.primitive "cube()"))] true
      [[Selection.node (Node.primitive "cube()")]] (by decide)⟩

/-- Claim C8, confirmed: `InvertedSelection` chains the `void` query through
to the wrapped selection, so `invert(void_selection)` still reports
`void == true` (and more generally inverting never changes voidness), which
is what keeps every consumer of the `void` query from treating an
inverted-void selection as "everything". -/
theorem claim_C8_inverted_void_reports_void :
    (Selection.invert Selection.void).isVoid = true ∧
    (∀ s : Selection, (Selection.invert s).isVoid = s.isVoid) :=
  ⟨rfl, fun _ => rfl⟩

/-- Claim C9, confirmed: `Object.compose` (and hence the `+ * -` and unary
negation sugar built on it) asserts that all operands are `Object`s before
any composition work; one non-`Object` operand makes it fail immediately
with the type-mismatch error. -/
theorem claim_C9_type_mismatch (op : List Bool → Bool) (vals : List PyVal) (v : PyVal)
    (hv : v ∈ vals) (hobj : v.isObject = false) :
    Object.composeChecked op vals = .error "TypeMismatch" := by
  unfold Object.composeChecked
  cases hall : vals.all PyVal.isObject with
  | false => rfl
  | true =>
      have := List.all_eq_true.mp hall v hv
      rw [hobj] at this
      cases this

/-- Claim C9 witness: composing addition with a non-`Object` operand. -/
theorem claim_C9_witness :
    PyVal.nonObject ∈ [PyVal.obj (Object.create Selection.void), PyVal.nonObject] ∧
    PyVal.nonObject.isObject = false ∧
    Object.composeChecked (binOp selAdd)
        [PyVal.obj (Object.create Selection.void), PyVal.nonObject]
      = .error "TypeMismatch" :=
  ⟨by decide, by decide,
    claim_C9_type_mismatch (binOp selAdd)
      [PyVal.obj (Object.create Selection.void), PyVal.nonObject] PyVal.nonObject
      (by decide) (by decide)⟩

/-- Claim C10, confirmed: `Selection.intersect` (and therefore
`Selection.union`, which goes through it) never hands an empty node list to
`Node.intersect` or `Node.union` — the empty-input case returns the void
selection before any node is built, so the non-empty destructuring never
fails and `intersectQ` always succeeds. -/
theorem claim_C10_nonempty_destructuring :
    (∀ L : List Selection, (Selection.intersectQ L).isSome = true) ∧
    Selection.intersectQ [] = some Selection.void := by
  constructor
  · intro L
    unfold Selection.intersectQ
    cases hl : Selection.intersectLoop L [] [] with
    | none => simp
    | some p =>
        rcases p with ⟨inv, nodes⟩
        cases inv <;> cases nodes <;> simp [Node.intersectN, Node.unionN]
  · rfl
